import Mathlib

/-!
Verification of mlab-chibios: card-presence debounce, mount controller and shell completion

Shallow embedding of

* `STM32F103/demos/STM32F103-sdcard-fat/main.c`:
  `tmrfunc`, `tmr_init`, `InsertHandler`, `RemoveHandler`;
* `STM32F103/demos/STM32F103-serialshell/microshell2.c`: `complete`.

Conventions.

* The debounce counter `cnt` is a C `unsigned`.  The only arithmetic on it is
  `--cnt` under the guard `cnt > 0` and the store of the constant `10`, so no
  wrap-around can happen and the counter is modelled by a `Nat`.
* Library calls whose code is outside the repository (`sdcIsCardInserted`,
  `sdcConnect`, `f_mount`, `sdcGetDriverState`) return values that depend on the
  hardware; their return values are inputs of the embedded functions.
* Side effects are recorded, in program order, in a trace.
-/

namespace MlabChibios

/-! ## Card insertion monitor (`main.c`, lines 21-72) -/

/-- The macro `SDC_POLLING_INTERVAL`. -/
def SDC_POLLING_INTERVAL : Nat := 10

/-- The two event sources of `main.c`, line 26. -/
inductive EventSource where
  | inserted_event
  | removed_event
  deriving DecidableEq, Repr

open EventSource

/-- One run of the timer callback `tmrfunc`.  `inserted` is the value returned by
`sdcIsCardInserted(sdcp)` in this run and `cnt` the debounce counter on entry.
The result is the counter on exit and the broadcasts (`chEvtBroadcastI`) made
by this run, in order.  The final `chVTSetI` re-arms the timer on every path;
it is what makes the next run happen and is modelled by `poll`. -/
def tmrfunc (inserted : Bool) (cnt : Nat) : Nat × List EventSource :=
  if cnt > 0 then
    if inserted then
      if cnt - 1 = 0 then (cnt - 1, [inserted_event])
      else (cnt - 1, [])
    else (SDC_POLLING_INTERVAL, [])
  else
    if !inserted then (SDC_POLLING_INTERVAL, [removed_event])
    else (cnt, [])

/-- The counter value stored by `tmr_init`. -/
def tmr_init : Nat := SDC_POLLING_INTERVAL

/-- The timer callback run once per presence sample, starting with counter
`cnt`: the final counter and, for every run, its list of broadcasts. -/
def poll : Nat → List Bool → Nat × List (List EventSource)
  | cnt, [] => (cnt, [])
  | cnt, b :: bs =>
    ((poll (tmrfunc b cnt).1 bs).1, (tmrfunc b cnt).2 :: (poll (tmrfunc b cnt).1 bs).2)

/-- The broadcasts of the `k`-th run (counted from 1) after `tmr_init`, when
the samples `s` are fed one per run; empty when there is no `k`-th run. -/
def broadcastAt (s : List Bool) (k : Nat) : List EventSource :=
  if k = 0 then [] else ((poll tmr_init s).2.getD (k - 1) [])

/-- The `k`-th presence sample (counted from 1), if there is one. -/
def sample (s : List Bool) (k : Nat) : Option Bool :=
  if k = 0 then none else s[k - 1]?

/-- All broadcasts made while the samples `s` are fed after `tmr_init`, in
order. -/
def broadcasts (s : List Bool) : List EventSource :=
  (poll tmr_init s).2.flatten

/-- Number of `true` samples at the end of `s` (proof device). -/
def trail (s : List Bool) : Nat := (s.reverse.takeWhile id).length

/-! ## Mount controller (`main.c`, lines 13-14, 83, 258-287) -/

/-- FatFs result code `FRESULT` (an enum of `ff.h`); the handlers only compare
it with `FR_OK`. -/
abbrev FRESULT := Nat

/-- The success code of FatFs. -/
def FR_OK : FRESULT := 0

/-- Side effects of the two event handlers, in program order: stores to the
globals `tried` and `fs_ready`, and calls of the storage-link and filesystem
functions. -/
inductive Effect where
  | store_tried (v : Int)
  | store_fs_ready (v : Bool)
  | sdcConnect
  | f_mount
  | sdcDisconnect
  deriving DecidableEq, Repr

/-- The globals `connected`, `tried` (lines 13-14) and `fs_ready` (line 83),
with the trace of the side effects made so far. -/
structure Globals where
  connected : Int
  tried : Int
  fs_ready : Bool
  trace : List Effect
  deriving DecidableEq, Repr

/-- The globals as initialised at program start. -/
def startup : Globals :=
  { connected := 0, tried := 0, fs_ready := false, trace := [] }

/-- Handler `InsertHandler`.  `sdcConnect_ret` is the value returned by
`sdcConnect(&SDCD1)` (true, i.e. non-zero, means that the connect failed) and
`err` the value returned by `f_mount(0, &SDC_FS)`, which is only called when
the connect succeeded. -/
def InsertHandler (sdcConnect_ret : Bool) (err : FRESULT) (g : Globals) : Globals :=
  -- tried = 1;
  let g := { g with tried := 1, trace := g.trace ++ [Effect.store_tried 1] }
  -- if (sdcConnect(&SDCD1)) return;
  let g := { g with trace := g.trace ++ [Effect.sdcConnect] }
  if sdcConnect_ret then g
  else
    -- err = f_mount(0, &SDC_FS);
    let g := { g with trace := g.trace ++ [Effect.f_mount] }
    if err ≠ FR_OK then
      -- sdcDisconnect(&SDCD1); return;
      { g with trace := g.trace ++ [Effect.sdcDisconnect] }
    else
      -- fs_ready = TRUE;
      { g with fs_ready := true, trace := g.trace ++ [Effect.store_fs_ready true] }

/-- Handler `RemoveHandler`.  `active` is the value of the test
`sdcGetDriverState(&SDCD1) == SDC_ACTIVE`. -/
def RemoveHandler (active : Bool) (g : Globals) : Globals :=
  let g := if active then { g with trace := g.trace ++ [Effect.sdcDisconnect] } else g
  { g with fs_ready := false, trace := g.trace ++ [Effect.store_fs_ready false] }

/-- An event delivered to the main loop, together with what the library calls
made by its handler return. -/
inductive CardEvent where
  | Inserted (sdcConnect_ret : Bool) (err : FRESULT)
  | Removed (active : Bool)
  deriving DecidableEq, Repr

/-- One `chEvtDispatch(evhndl, ...)` of the main loop, with
`evhndl = {InsertHandler, RemoveHandler}`. -/
def dispatch (g : Globals) : CardEvent → Globals
  | CardEvent.Inserted r err => InsertHandler r err g
  | CardEvent.Removed a => RemoveHandler a g

/-- The main loop handling the events `es` one after the other. -/
def handleAll (es : List CardEvent) (g : Globals) : Globals :=
  es.foldl dispatch g

/-- Whether an event is an insertion event. -/
def CardEvent.isInserted : CardEvent → Bool
  | CardEvent.Inserted _ _ => true
  | CardEvent.Removed _ => false

/-- Whether an event is an insertion event whose connect and mount both
succeed. -/
def CardEvent.isMounted : CardEvent → Bool
  | CardEvent.Inserted r err => !r && err == FR_OK
  | CardEvent.Removed _ => false

/-- Number of insertion events in a sequence of events. -/
def numInserted (es : List CardEvent) : Nat := es.countP CardEvent.isInserted

/-- Number of insertion events whose connect and mount both succeed. -/
def numMounted (es : List CardEvent) : Nat := es.countP CardEvent.isMounted

/-! ## Completion callback (`microshell2.c`, lines 17-37, 121-156) -/

/-- A C string: the characters before the terminating NUL. -/
abbrev CString := List Char

/-- The macro `_CMD_HELP`. -/
def _CMD_HELP : CString := "help".toList
/-- The macro `_CMD_CLEAR`. -/
def _CMD_CLEAR : CString := "clear".toList
/-- The macro `_CMD_LIST`. -/
def _CMD_LIST : CString := "list".toList
/-- The macro `_CMD_LISP`. -/
def _CMD_LISP : CString := "lisp".toList
/-- The macro `_CMD_NAME`. -/
def _CMD_NAME : CString := "name".toList
/-- The macro `_CMD_VER`. -/
def _CMD_VER : CString := "version".toList
/-- The macro `_SCMD_MRL`. -/
def _SCMD_MRL : CString := "microrl".toList
/-- The macro `_SCMD_DEMO`. -/
def _SCMD_DEMO : CString := "demo".toList

/-- The macro `_NUM_OF_CMD`. -/
def _NUM_OF_CMD : Nat := 6
/-- The macro `_NUM_OF_VER_SCMD`. -/
def _NUM_OF_VER_SCMD : Nat := 2

/-- The table `keyworld` of available commands. -/
def keyworld : List CString :=
  [_CMD_HELP, _CMD_CLEAR, _CMD_LIST, _CMD_NAME, _CMD_VER, _CMD_LISP]

/-- The table `ver_keyworld` of subcommands of `version`. -/
def ver_keyworld : List CString := [_SCMD_MRL, _SCMD_DEMO]

/-- The C library function `strstr`: the offset in `hay` of the first
occurrence of `needle`, or `none` (a null pointer) when there is none; an
empty `needle` is found at offset 0. -/
def strstr (hay needle : CString) : Option Nat :=
  if needle.isPrefixOf hay then some 0
  else match hay with
    | [] => none
    | _ :: t => (strstr t needle).map (· + 1)

/-- The C library function `strcmp`, up to the sign of its result: characters
are compared as unsigned values, and a string that ends first is the
smaller. -/
def strcmp : CString → CString → Int
  | [], [] => 0
  | [], _ :: _ => -1
  | _ :: _, [] => 1
  | a :: as, b :: bs =>
    if a = b then strcmp as bs else if a.toNat < b.toNat then -1 else 1

/-- A store `a[i] = v` into a C array; `none` when `i` is outside the array. -/
def store {α : Type} (a : List α) (i : Nat) (v : α) : Option (List α) :=
  if i < a.length then some (a.set i v) else none

/-- The matching loop of `complete`,
`for (i = ..; i < n; i++) if (strstr(tbl[i], bit) == tbl[i]) compl_world[j++] = tbl[i];`
with `k = n - i` iterations left.  The result is the final `j` and the final
array; `none` when the table or the array is accessed outside its bounds. -/
def matchLoop (tbl : List CString) (bit : CString) :
    Nat → Nat → Nat → List (Option CString) → Option (Nat × List (Option CString))
  | 0, _, j, cw => some (j, cw)
  | k + 1, i, j, cw =>
    match tbl[i]? with
    | none => none
    | some kw =>
      if strstr kw bit = some 0 then
        match store cw j (some kw) with
        | none => none
        | some cw1 => matchLoop tbl bit k (i + 1) (j + 1) cw1
      else matchLoop tbl bit k (i + 1) j cw

/-- The copying loop of `complete`,
`for (; j < _NUM_OF_CMD; j++) compl_world[j] = keyworld[j];`
with `k = _NUM_OF_CMD - j` iterations left. -/
def copyLoop : Nat → Nat → List (Option CString) → Option (Nat × List (Option CString))
  | 0, j, cw => some (j, cw)
  | k + 1, j, cw =>
    match keyworld[j]? with
    | none => none
    | some kw =>
      match store cw j (some kw) with
      | none => none
      | some cw1 => copyLoop k (j + 1) cw1

/-- The completion callback `complete`.  `compl_world` is the content of the
global array on entry (`none` is a null pointer).  The result is the final
value of the local `j` and the content of `compl_world` on return (the
returned pointer is `compl_world` itself); `none` when an array is accessed
outside its bounds. -/
def complete (argc : Nat) (argv : List CString) (compl_world : List (Option CString)) :
    Option (Nat × List (Option CString)) :=
  -- compl_world[0] = NULL;
  (store compl_world 0 none).bind fun cw =>
  (if argc = 1 then
    -- char * bit = (char*)argv[argc-1];
    (argv[argc - 1]?).bind fun bit =>
    matchLoop keyworld bit _NUM_OF_CMD 0 0 cw
  else if argc > 1 then
    (argv[0]?).bind fun a0 =>
    if strcmp a0 _CMD_VER = 0 then
      (argv[argc - 1]?).bind fun last =>
      matchLoop ver_keyworld last _NUM_OF_VER_SCMD 0 0 cw
    else copyLoop (_NUM_OF_CMD - 0) 0 cw
  else copyLoop (_NUM_OF_CMD - 0) 0 cw).bind fun jc =>
  -- compl_world[j] = NULL;
  (store jc.2 jc.1 none).map fun cw1 => (jc.1, cw1)

/-- The entries of a null-terminated array of strings: the pointers before the
first null pointer. -/
def entries (a : List (Option CString)) : List CString :=
  (a.takeWhile Option.isSome).filterMap id

/-! ## Theorems: debounce timer -/

theorem tmrfunc_inserted_iff (b : Bool) (c : Nat) :
    inserted_event ∈ (tmrfunc b c).2 ↔ b = true ∧ c = 1 := by
  unfold tmrfunc
  cases b <;> by_cases h : c > 0 <;> simp [h]
  · by_cases h1 : c - 1 = 0
    · simp [h1]; omega
    · simp [h1]; omega
  · omega

theorem poll_append (c : Nat) (s t : List Bool) :
    poll c (s ++ t) = ((poll (poll c s).1 t).1, (poll c s).2 ++ (poll (poll c s).1 t).2) := by
  induction s generalizing c with
  | nil => simp [poll]
  | cons b bs ih => simp [poll, ih]

theorem poll_snd_length (c : Nat) (s : List Bool) : (poll c s).2.length = s.length := by
  induction s generalizing c with
  | nil => simp [poll]
  | cons b bs ih => simp [poll, ih]

theorem poll_getElem? (c : Nat) (s : List Bool) (t : Nat) :
    (poll c s).2[t]? = (s[t]?).map (fun b => (tmrfunc b (poll c (s.take t)).1).2) := by
  induction s generalizing c t with
  | nil => simp [poll]
  | cons b bs ih =>
    cases t with
    | zero => simp [poll]
    | succ t => simp [poll, ih]

theorem trail_snoc (l : List Bool) (a : Bool) :
    trail (l ++ [a]) = if a then trail l + 1 else 0 := by
  cases a <;> simp [trail, List.takeWhile]

theorem poll_cnt (s : List Bool) :
    (poll tmr_init s).1 = SDC_POLLING_INTERVAL - min SDC_POLLING_INTERVAL (trail s) := by
  induction s using List.reverseRecOn with
  | nil => simp [poll, trail, tmr_init]
  | append_singleton l a ih =>
    rw [poll_append, trail_snoc]
    simp only [poll, ih]
    unfold tmrfunc SDC_POLLING_INTERVAL
    cases a <;> simp <;> split <;> (try split) <;> simp <;> omega

theorem trail_eq_iff (l : List Bool) (n : Nat) :
    trail l = n ↔ n ≤ l.length ∧ (∀ i, i < n → l[l.length - 1 - i]? = some true) ∧
      (n = l.length ∨ l[l.length - 1 - n]? = some false) := by
  induction l using List.reverseRecOn generalizing n with
  | nil =>
    simp only [trail, List.reverse_nil, List.takeWhile_nil, List.length_nil]
    constructor
    · intro h; subst h; simp
    · rintro ⟨h, -⟩; omega
  | append_singleton l a ih =>
    rw [trail_snoc]
    have hlen : (l ++ [a]).length = l.length + 1 := by simp
    rw [hlen]
    cases a
    · constructor
      · intro h
        simp only [Bool.false_eq_true, if_false] at h
        subst h
        refine ⟨by omega, fun i hi => by omega, Or.inr ?_⟩
        rw [List.getElem?_append_right (by omega)]
        simp
      · rintro ⟨-, h2, -⟩
        simp only [Bool.false_eq_true, if_false]
        by_contra hn
        have h0 := h2 0 (by omega)
        rw [List.getElem?_append_right (by omega)] at h0
        simp at h0
    · simp only [if_true]
      cases n with
      | zero =>
        constructor
        · intro h; omega
        · rintro ⟨-, -, h3⟩
          rcases h3 with h3 | h3
          · omega
          · rw [List.getElem?_append_right (by omega)] at h3
            simp at h3
      | succ n =>
        rw [Nat.add_right_cancel_iff, ih n]
        constructor
        · rintro ⟨h1, h2, h3⟩
          refine ⟨by omega, ?_, ?_⟩
          · intro i hi
            cases i with
            | zero =>
              rw [List.getElem?_append_right (by omega)]
              simp
            | succ i =>
              rw [List.getElem?_append_left (by omega)]
              have := h2 i (by omega)
              rw [show l.length + 1 - 1 - (i + 1) = l.length - 1 - i by omega]
              exact this
          · rcases h3 with h3 | h3
            · left; omega
            · by_cases hn : n = l.length
              · left; omega
              · right
                rw [List.getElem?_append_left (by omega)]
                rw [show l.length + 1 - 1 - (n + 1) = l.length - 1 - n by omega]
                exact h3
        · rintro ⟨h1, h2, h3⟩
          refine ⟨by omega, ?_, ?_⟩
          · intro i hi
            have := h2 (i + 1) (by omega)
            rw [List.getElem?_append_left (by omega)] at this
            rw [show l.length + 1 - 1 - (i + 1) = l.length - 1 - i by omega] at this
            exact this
          · by_cases hn : n = l.length
            · left; exact hn
            · right
              rcases h3 with h3 | h3
              · omega
              · rw [List.getElem?_append_left (by omega)] at h3
                rw [show l.length + 1 - 1 - (n + 1) = l.length - 1 - n by omega] at h3
                exact h3

theorem broadcastAt_succ (s : List Bool) (m : Nat) :
    broadcastAt s (m + 1) =
      ((s[m]?).map (fun b => (tmrfunc b (poll tmr_init (s.take m)).1).2)).getD [] := by
  simp [broadcastAt, List.getD_eq_getElem?_getD, poll_getElem?]

theorem inserted_at_iff (s : List Bool) (k : Nat) :
    inserted_event ∈ broadcastAt s k ↔
      (SDC_POLLING_INTERVAL ≤ k ∧
        (∀ i, k + 1 - SDC_POLLING_INTERVAL ≤ i → i ≤ k → sample s i = some true) ∧
        (k = SDC_POLLING_INTERVAL ∨ sample s (k - SDC_POLLING_INTERVAL) = some false)) := by
  cases k with
  | zero => simp [broadcastAt, SDC_POLLING_INTERVAL]
  | succ m =>
    rw [broadcastAt_succ]
    cases hb : s[m]? with
    | none =>
      simp only [Option.map_none', Option.getD_none, List.not_mem_nil, false_iff]
      rintro ⟨-, h2, -⟩
      have := h2 (m + 1) (by unfold SDC_POLLING_INTERVAL; omega) (by omega)
      simp [sample, hb] at this
    | some b =>
      have hm : m < s.length := by
        rcases List.getElem?_eq_some_iff.mp hb with ⟨h, -⟩
        exact h
      simp only [Option.map_some', Option.getD_some, tmrfunc_inserted_iff, poll_cnt]
      have hlen : (s.take m).length = m := by simp; omega
      have key : SDC_POLLING_INTERVAL - min SDC_POLLING_INTERVAL (trail (s.take m)) = 1 ↔
          trail (s.take m) = 9 := by
        unfold SDC_POLLING_INTERVAL; omega
      rw [key, trail_eq_iff, hlen]
      unfold SDC_POLLING_INTERVAL
      constructor
      · rintro ⟨hbt, h1, h2, h3⟩
        refine ⟨by omega, ?_, ?_⟩
        · intro i hi1 hi2
          by_cases hik : i = m + 1
          · subst hik
            simp [sample, hb, hbt]
          · have := h2 (m - i) (by omega)
            rw [List.getElem?_take_of_lt (by omega)] at this
            rw [show m - 1 - (m - i) = i - 1 by omega] at this
            simp only [sample]
            rw [if_neg (by omega)]
            exact this
        · rcases h3 with h3 | h3
          · left; omega
          · by_cases h9 : m = 9
            · left; omega
            · right
              rw [List.getElem?_take_of_lt (by omega)] at h3
              simp only [sample]
              rw [if_neg (by omega)]
              rw [show m + 1 - 10 - 1 = m - 1 - 9 by omega]
              exact h3
      · rintro ⟨h1, h2, h3⟩
        refine ⟨?_, by omega, ?_, ?_⟩
        · have := h2 (m + 1) (by omega) (by omega)
          simpa [sample, hb] using this
        · intro i hi
          have := h2 (m - i) (by omega) (by omega)
          simp only [sample] at this
          rw [if_neg (by omega)] at this
          rw [List.getElem?_take_of_lt (by omega)]
          rw [show m - 1 - i = m - i - 1 by omega]
          exact this
        · by_cases h9 : m = 9
          · left; omega
          · right
            rcases h3 with h3 | h3
            · omega
            · simp only [sample] at h3
              rw [if_neg (by omega)] at h3
              rw [List.getElem?_take_of_lt (by omega)]
              rw [show m - 1 - 9 = m + 1 - 10 - 1 by omega]
              exact h3

theorem mem_broadcasts_iff (s : List Bool) (e : EventSource) :
    e ∈ broadcasts s ↔ ∃ k, e ∈ broadcastAt s k := by
  simp only [broadcasts, List.mem_flatten]
  constructor
  · rintro ⟨l, hl, he⟩
    rcases List.getElem?_of_mem hl with ⟨n, hn⟩
    refine ⟨n + 1, ?_⟩
    simp [broadcastAt, List.getD_eq_getElem?_getD, hn, he]
  · rintro ⟨k, hk⟩
    cases k with
    | zero => simp [broadcastAt] at hk
    | succ m =>
      simp only [broadcastAt, List.getD_eq_getElem?_getD] at hk
      cases h : (poll tmr_init s).2[m]? with
      | none => simp [h] at hk
      | some l =>
        simp [h] at hk
        exact ⟨l, List.getElem?_mem h, hk⟩

/-- C1. After `tmr_init`, for every sequence of presence samples fed one per
run of `tmrfunc`, `inserted_event` is broadcast at run `k` exactly when the
samples `k-9 .. k` are all true and the run of true samples starts from a
confirmed-absent state (`k = 10` or sample `k-10` is false).  Ten true samples
give exactly one `inserted_event`, at the tenth run; and when no window of ten
consecutive true samples exists, `inserted_event` is never broadcast. -/
theorem C1_inserted_iff_sustained_presence :
    (∀ (s : List Bool) (k : Nat),
      inserted_event ∈ broadcastAt s k ↔
        (SDC_POLLING_INTERVAL ≤ k ∧
          (∀ i, k + 1 - SDC_POLLING_INTERVAL ≤ i → i ≤ k → sample s i = some true) ∧
          (k = SDC_POLLING_INTERVAL ∨ sample s (k - SDC_POLLING_INTERVAL) = some false))) ∧
    (broadcasts (List.replicate 10 true) = [inserted_event] ∧
      broadcastAt (List.replicate 10 true) 10 = [inserted_event]) ∧
    (∀ s : List Bool,
      (¬ ∃ k, SDC_POLLING_INTERVAL ≤ k ∧
          ∀ i, k + 1 - SDC_POLLING_INTERVAL ≤ i → i ≤ k → sample s i = some true) →
      inserted_event ∉ broadcasts s) := by
  refine ⟨inserted_at_iff, ⟨by decide, by decide⟩, ?_⟩
  intro s hno hmem
  rcases (mem_broadcasts_iff s _).mp hmem with ⟨k, hk⟩
  rcases (inserted_at_iff s k).mp hk with ⟨h1, h2, -⟩
  exact hno ⟨k, h1, h2⟩

/-- C5. In the confirmed-present state (`cnt = 0`) a run with presence false
broadcasts exactly one `removed_event` in that same run (and no
`inserted_event`) and sets the counter to `SDC_POLLING_INTERVAL`; a run with
presence true broadcasts nothing and leaves the counter at 0. -/
theorem C5_removed_is_immediate :
    tmrfunc false 0 = (SDC_POLLING_INTERVAL, [removed_event]) ∧
    tmrfunc true 0 = (0, []) := by
  constructor <;> rfl

/-- C6. During the countdown (`0 < cnt ≤ SDC_POLLING_INTERVAL`) a run with
presence false sets the counter back to `SDC_POLLING_INTERVAL` and broadcasts
nothing; and for the samples `[true]*5, false, [true]*10` after `tmr_init`
exactly one event is broadcast in total, an `inserted_event` at the 16th
run. -/
theorem C6_glitch_resets_countdown :
    (∀ cnt : Nat, 0 < cnt → cnt ≤ SDC_POLLING_INTERVAL →
      tmrfunc false cnt = (SDC_POLLING_INTERVAL, [])) ∧
    (poll tmr_init (List.replicate 5 true ++ false :: List.replicate 10 true)).2 =
      List.replicate 15 [] ++ [[inserted_event]] ∧
    broadcasts (List.replicate 5 true ++ false :: List.replicate 10 true) = [inserted_event] ∧
    broadcastAt (List.replicate 5 true ++ false :: List.replicate 10 true) 16 =
      [inserted_event] := by
  refine ⟨?_, by decide, by decide, by decide⟩
  intro cnt h _
  simp [tmrfunc, h]

theorem tmrfunc_length_le_one (b : Bool) (c : Nat) : (tmrfunc b c).2.length ≤ 1 := by
  unfold tmrfunc
  split <;> split <;> (try split) <;> simp

theorem poll_length_le_one (c : Nat) (s : List Bool) :
    ∀ l ∈ (poll c s).2, l.length ≤ 1 := by
  induction s generalizing c with
  | nil => simp [poll]
  | cons b bs ih =>
    intro l hl
    simp only [poll, List.mem_cons] at hl
    rcases hl with hl | hl
    · rw [hl]; exact tmrfunc_length_le_one b c
    · exact ih _ l hl

theorem poll_alternates (c : Nat) (s : List Bool) :
    ∀ i e, (poll c s).2.flatten[i]? = some e →
      e = if (i + (if c = 0 then 1 else 0)) % 2 = 0 then inserted_event
          else removed_event := by
  induction s generalizing c with
  | nil => simp [poll]
  | cons b bs ih =>
    intro i e h
    simp only [poll, List.flatten_cons] at h
    have ih0 := ih (tmrfunc b c).1
    unfold tmrfunc at h ih0
    by_cases hc : c > 0
    · have hc0 : c ≠ 0 := by omega
      cases b
      · simp only [hc, if_true, Bool.false_eq_true, if_false, List.nil_append] at h ih0
        have := ih0 i e h
        simpa [hc0, SDC_POLLING_INTERVAL] using this
      · by_cases h1 : c - 1 = 0
        · simp only [hc, if_true, h1, List.singleton_append] at h ih0
          cases i with
          | zero =>
            simp at h
            simp [hc0, h]
          | succ j =>
            simp only [List.getElem?_cons_succ] at h
            have := ih0 j e h
            rw [this]
            simp only [hc0, if_true, if_false]
        · simp only [hc, if_true, h1, if_false, List.nil_append] at h ih0
          have := ih0 i e h
          simpa [hc0, h1] using this
    · have hc0 : c = 0 := by omega
      subst hc0
      cases b
      · simp only [Nat.lt_irrefl, if_false, Bool.not_false, if_true,
          List.singleton_append] at h ih0
        cases i with
        | zero =>
          simp at h
          simp [h]
        | succ j =>
          simp only [List.getElem?_cons_succ] at h
          have := ih0 j e h
          rw [this]
          simp only [SDC_POLLING_INTERVAL]
          have h2 : (j + 1 + 1) % 2 = j % 2 := by omega
          simp [h2]
      · simp only [Nat.lt_irrefl, if_false, Bool.not_true, Bool.false_eq_true,
          List.nil_append] at h ih0
        have := ih0 i e h
        simpa using this

/-- C9. After `tmr_init`, for every sequence of presence samples, every run of
`tmrfunc` broadcasts at most one event, and the broadcasts taken in order
alternate `inserted_event`, `removed_event`, `inserted_event`, ..., starting
with `inserted_event`: the broadcast of index `i` (from 0) is `inserted_event`
when `i` is even and `removed_event` when `i` is odd. -/
theorem C9_broadcasts_alternate (s : List Bool) :
    (∀ l ∈ (poll tmr_init s).2, l.length ≤ 1) ∧
    (∀ i e, (broadcasts s)[i]? = some e →
      e = if i % 2 = 0 then inserted_event else removed_event) := by
  refine ⟨poll_length_le_one _ s, ?_⟩
  intro i e h
  have := poll_alternates tmr_init s i e h
  simpa [tmr_init, SDC_POLLING_INTERVAL] using this

/-! ## Theorems: mount controller -/

theorem handleAll_snoc (es : List CardEvent) (e : CardEvent) (g : Globals) :
    handleAll (es ++ [e]) g = dispatch (handleAll es g) e := by
  simp [handleAll]

theorem InsertHandler_fs_ready (r : Bool) (err : FRESULT) (g : Globals) :
    (InsertHandler r err g).fs_ready = if r = false ∧ err = FR_OK then true else g.fs_ready := by
  unfold InsertHandler
  cases r <;> by_cases h : err = FR_OK <;> simp [h]

theorem snoc_eq_split {α : Type} (es pre post : List α) (e x : α)
    (h : es ++ [e] = pre ++ x :: post) :
    (post = [] ∧ es = pre ∧ e = x) ∨ (∃ post1, post = post1 ++ [e] ∧ es = pre ++ x :: post1) := by
  rcases List.eq_nil_or_concat post with hp | ⟨post1, p, hp⟩
  · subst hp
    have := List.append_inj' h (by simp)
    left
    exact ⟨rfl, this.1, by simpa using this.2⟩
  · rw [List.concat_eq_append] at hp
    subst hp
    have h1 : es ++ [e] = (pre ++ x :: post1) ++ [p] := by simpa using h
    have := List.append_inj' h1 (by simp)
    right
    have hpe : e = p := by simpa using this.2
    subst hpe
    exact ⟨post1, rfl, this.1⟩

/-- C2. Starting with `fs_ready = false`, after any finite sequence of
dispatched events (insertions with arbitrary connect and mount results,
removals with arbitrary storage-link state), `fs_ready` is true exactly when
the sequence contains an insertion whose connect and mount both succeeded and
that is followed by no removal. -/
theorem C2_fs_ready_iff_mounted_and_not_removed (es : List CardEvent) (g : Globals)
    (hg : g.fs_ready = false) :
    (handleAll es g).fs_ready = true ↔
      ∃ pre post, es = pre ++ CardEvent.Inserted false FR_OK :: post ∧
        ∀ a, CardEvent.Removed a ∉ post := by
  induction es using List.reverseRecOn with
  | nil => simp [handleAll, hg]
  | append_singleton es e ih =>
    rw [handleAll_snoc]
    cases e with
    | Removed a =>
      simp only [dispatch, RemoveHandler, Bool.false_eq_true, false_iff]
      rintro ⟨pre, post, h, hno⟩
      rcases snoc_eq_split _ _ _ _ _ h with ⟨-, -, h3⟩ | ⟨post1, h1, -⟩
      · cases h3
      · exact hno a (by simp [h1])
    | Inserted r err =>
      simp only [dispatch, InsertHandler_fs_ready]
      by_cases hok : r = false ∧ err = FR_OK
      · simp only [hok, and_self, if_true, true_iff]
        rcases hok with ⟨hr, he⟩
        subst hr; subst he
        exact ⟨es, [], rfl, by simp⟩
      · rw [if_neg hok, ih]
        constructor
        · rintro ⟨pre, post, h, hno⟩
          refine ⟨pre, post ++ [CardEvent.Inserted r err], by simp [h], ?_⟩
          intro a ha
          simp only [List.mem_append, List.mem_singleton] at ha
          rcases ha with ha | ha
          · exact hno a ha
          · cases ha
        · rintro ⟨pre, post, h, hno⟩
          rcases snoc_eq_split _ _ _ _ _ h with ⟨-, -, h3⟩ | ⟨post1, h1, h2⟩
          · cases h3
            exact absurd ⟨rfl, rfl⟩ hok
          · refine ⟨pre, post1, h2, ?_⟩
            intro a ha
            exact hno a (by simp [h1, ha])

/-- Instance of C2 at a sequence of four events handled from startup. -/
theorem C2_witness :
    startup.fs_ready = false ∧
    ((handleAll [CardEvent.Inserted false FR_OK, CardEvent.Removed true,
        CardEvent.Inserted false FR_OK, CardEvent.Inserted true 3] startup).fs_ready = true ↔
      ∃ pre post, [CardEvent.Inserted false FR_OK, CardEvent.Removed true,
          CardEvent.Inserted false FR_OK, CardEvent.Inserted true 3] =
            pre ++ CardEvent.Inserted false FR_OK :: post ∧
        ∀ a, CardEvent.Removed a ∉ post) :=
  ⟨rfl, C2_fs_ready_iff_mounted_and_not_removed _ startup rfl⟩

/-- C3. `InsertHandler` run with `fs_ready = false`, for every result of
connect and mount: `sdcConnect` is called exactly once; when the connect fails,
`f_mount` and `sdcDisconnect` are not called and `fs_ready` stays false; when
the connect succeeds and the mount fails, `sdcDisconnect` is called exactly
once and `fs_ready` stays false; when both succeed, `sdcDisconnect` is not
called and `fs_ready` becomes true. -/
theorem C3_InsertHandler_from_unmounted (r : Bool) (err : FRESULT) (g : Globals)
    (hg : g.fs_ready = false) :
    (InsertHandler r err g).trace.count Effect.sdcConnect =
      g.trace.count Effect.sdcConnect + 1 ∧
    (r = true →
      (InsertHandler r err g).trace.count Effect.f_mount = g.trace.count Effect.f_mount ∧
      (InsertHandler r err g).trace.count Effect.sdcDisconnect =
        g.trace.count Effect.sdcDisconnect ∧
      (InsertHandler r err g).fs_ready = false) ∧
    (r = false → err ≠ FR_OK →
      (InsertHandler r err g).trace.count Effect.f_mount = g.trace.count Effect.f_mount + 1 ∧
      (InsertHandler r err g).trace.count Effect.sdcDisconnect =
        g.trace.count Effect.sdcDisconnect + 1 ∧
      (InsertHandler r err g).fs_ready = false) ∧
    (r = false → err = FR_OK →
      (InsertHandler r err g).trace.count Effect.f_mount = g.trace.count Effect.f_mount + 1 ∧
      (InsertHandler r err g).trace.count Effect.sdcDisconnect =
        g.trace.count Effect.sdcDisconnect ∧
      (InsertHandler r err g).fs_ready = true) := by
  unfold InsertHandler
  cases r <;> by_cases h : err = FR_OK <;> simp [h, hg, List.count_append, List.count_cons]

/-- Instance of C3 at startup with a successful connect and a failing mount. -/
theorem C3_witness :
    startup.fs_ready = false ∧
    ((InsertHandler false 1 startup).trace.count Effect.sdcConnect =
      startup.trace.count Effect.sdcConnect + 1 ∧
    (false = true →
      (InsertHandler false 1 startup).trace.count Effect.f_mount =
        startup.trace.count Effect.f_mount ∧
      (InsertHandler false 1 startup).trace.count Effect.sdcDisconnect =
        startup.trace.count Effect.sdcDisconnect ∧
      (InsertHandler false 1 startup).fs_ready = false) ∧
    (false = false → 1 ≠ FR_OK →
      (InsertHandler false 1 startup).trace.count Effect.f_mount =
        startup.trace.count Effect.f_mount + 1 ∧
      (InsertHandler false 1 startup).trace.count Effect.sdcDisconnect =
        startup.trace.count Effect.sdcDisconnect + 1 ∧
      (InsertHandler false 1 startup).fs_ready = false) ∧
    (false = false → 1 = FR_OK →
      (InsertHandler false 1 startup).trace.count Effect.f_mount =
        startup.trace.count Effect.f_mount + 1 ∧
      (InsertHandler false 1 startup).trace.count Effect.sdcDisconnect =
        startup.trace.count Effect.sdcDisconnect ∧
      (InsertHandler false 1 startup).fs_ready = true)) :=
  ⟨rfl, C3_InsertHandler_from_unmounted false 1 startup rfl⟩

/-- C4. `RemoveHandler`, for every prior state: `fs_ready` is false afterwards,
and `sdcDisconnect` is called exactly once when the storage link reports
active and not at all otherwise.  Hence two removals handled in a row, where
the link no longer reports active at the second one if the first one
disconnected it, call `sdcDisconnect` at most once in total. -/
theorem C4_RemoveHandler_disconnects_active_link_once :
    (∀ (a : Bool) (g : Globals),
      (RemoveHandler a g).fs_ready = false ∧
      (RemoveHandler a g).trace.count Effect.sdcDisconnect =
        g.trace.count Effect.sdcDisconnect + (if a then 1 else 0)) ∧
    (∀ (a1 a2 : Bool) (g : Globals), (a1 = true → a2 = false) →
      (RemoveHandler a2 (RemoveHandler a1 g)).fs_ready = false ∧
      (RemoveHandler a2 (RemoveHandler a1 g)).trace.count Effect.sdcDisconnect ≤
        g.trace.count Effect.sdcDisconnect + 1) := by
  constructor
  · intro a g
    unfold RemoveHandler
    cases a <;> simp [List.count_append, List.count_cons]
  · intro a1 a2 g h
    unfold RemoveHandler
    cases a1 <;> cases a2 <;> simp [List.count_append, List.count_cons] at h ⊢

/-- C7, as stated, fails: with `fs_ready = true` before the run and a failing
connect, `fs_ready` is still true after `InsertHandler`. -/
theorem C7_counterexample :
    ¬ (∀ (g : Globals) (r : Bool) (err : FRESULT),
        (r = true ∨ (r = false ∧ err ≠ FR_OK)) →
        (InsertHandler r err g).fs_ready = false) := by
  intro h
  have := h { connected := 0, tried := 1, fs_ready := true, trace := [] } true FR_OK
    (Or.inl rfl)
  simp [InsertHandler] at this

/-- C7, amended. For every prior state, after `InsertHandler` runs with a
failing connect or with a successful connect followed by a failing mount,
`fs_ready` has the value it had before the run and `InsertHandler` has made no
store to `fs_ready`; in particular it is false when it was false before. -/
theorem C7_InsertHandler_failure_keeps_fs_ready (g : Globals) (r : Bool) (err : FRESULT)
    (h : r = true ∨ (r = false ∧ err ≠ FR_OK)) :
    (InsertHandler r err g).fs_ready = g.fs_ready ∧
    (∀ v, (InsertHandler r err g).trace.count (Effect.store_fs_ready v) =
      g.trace.count (Effect.store_fs_ready v)) := by
  unfold InsertHandler
  rcases h with h | ⟨h1, h2⟩
  · subst h
    simp [List.count_append, List.count_cons]
  · subst h1
    simp [h2, List.count_append, List.count_cons]

/-- Instance of amended C7 with `fs_ready = true` before the run, a successful
connect and a failing mount. -/
theorem C7_witness :
    (false = true ∨ (false = false ∧ 2 ≠ FR_OK)) ∧
    ((InsertHandler false 2
        { connected := 0, tried := 1, fs_ready := true, trace := [] }).fs_ready =
      (Globals.mk 0 1 true []).fs_ready ∧
    (∀ v, (InsertHandler false 2
        { connected := 0, tried := 1, fs_ready := true, trace := [] }).trace.count
          (Effect.store_fs_ready v) =
      (Globals.mk 0 1 true []).trace.count (Effect.store_fs_ready v))) :=
  ⟨Or.inr ⟨rfl, by decide⟩,
    C7_InsertHandler_failure_keeps_fs_ready _ false 2 (Or.inr ⟨rfl, by decide⟩)⟩

/-- C8, as stated, fails: after two handled insertions that both connect and
mount, `tried` is 1 and not 2, and `connected` is 0 and not 2. -/
theorem C8_counterexample :
    numInserted [CardEvent.Inserted false FR_OK, CardEvent.Inserted false FR_OK] = 2 ∧
    numMounted [CardEvent.Inserted false FR_OK, CardEvent.Inserted false FR_OK] = 2 ∧
    (handleAll [CardEvent.Inserted false FR_OK, CardEvent.Inserted false FR_OK]
      startup).tried ≠ 2 ∧
    (handleAll [CardEvent.Inserted false FR_OK, CardEvent.Inserted false FR_OK]
      startup).connected ≠ 2 := by
  decide

theorem RemoveHandler_counters (a : Bool) (g : Globals) :
    (RemoveHandler a g).tried = g.tried ∧ (RemoveHandler a g).connected = g.connected := by
  unfold RemoveHandler
  cases a <;> simp

theorem InsertHandler_counters (r : Bool) (err : FRESULT) (g : Globals) :
    (InsertHandler r err g).tried = 1 ∧ (InsertHandler r err g).connected = g.connected := by
  unfold InsertHandler
  cases r <;> by_cases h : err = FR_OK <;> simp [h]

theorem handleAll_counters (es : List CardEvent) (g : Globals) :
    (handleAll es g).tried = (if numInserted es = 0 then g.tried else 1) ∧
    (handleAll es g).connected = g.connected := by
  induction es using List.reverseRecOn with
  | nil => simp [handleAll, numInserted]
  | append_singleton es e ih =>
    rw [handleAll_snoc]
    cases e with
    | Removed a =>
      have h := RemoveHandler_counters a (handleAll es g)
      have hn : numInserted (es ++ [CardEvent.Removed a]) = numInserted es := by
        simp [numInserted, List.countP_append, CardEvent.isInserted]
      simp only [dispatch, h.1, h.2, hn]
      exact ih
    | Inserted r err =>
      have h := InsertHandler_counters r err (handleAll es g)
      have hn : numInserted (es ++ [CardEvent.Inserted r err]) = numInserted es + 1 := by
        simp [numInserted, List.countP_append, CardEvent.isInserted]
      simp only [dispatch, h.1, h.2, hn]
      exact ⟨by simp, ih.2⟩

/-- C8, amended. Every run of `InsertHandler` stores 1 in `tried` before the
connect attempt and never changes `connected`; so from startup (both 0), after
any sequence of handled events of which `n` are insertions, `tried` is 0 when
`n = 0` and 1 otherwise, and `connected` is 0. -/
theorem C8_tried_is_flag_connected_unchanged :
    (∀ (r : Bool) (err : FRESULT) (g : Globals),
      (InsertHandler r err g).tried = 1 ∧
      (InsertHandler r err g).connected = g.connected ∧
      ∃ rest, (InsertHandler r err g).trace =
        g.trace ++ Effect.store_tried 1 :: Effect.sdcConnect :: rest) ∧
    (∀ es : List CardEvent,
      (handleAll es startup).tried = (if numInserted es = 0 then 0 else 1) ∧
      (handleAll es startup).connected = 0) := by
  constructor
  · intro r err g
    unfold InsertHandler
    cases r <;> by_cases h : err = FR_OK <;> simp [h]
  · intro es
    exact handleAll_counters es startup

/-! ## Theorems: completion callback -/

theorem strstr_eq_zero_iff (hay needle : CString) :
    strstr hay needle = some 0 ↔ needle.isPrefixOf hay = true := by
  unfold strstr
  by_cases h : needle.isPrefixOf hay = true
  · simp [h]
  · simp only [h, if_false, iff_false]
    cases hay with
    | nil => simp
    | cons c t =>
      cases strstr t needle <;> simp

theorem strcmp_eq_zero_iff (a b : CString) : strcmp a b = 0 ↔ a = b := by
  induction a generalizing b with
  | nil => cases b <;> simp [strcmp]
  | cons x xs ih =>
    cases b with
    | nil => simp [strcmp]
    | cons y ys =>
      unfold strcmp
      by_cases hxy : x = y
      · simp [hxy, ih]
      · simp only [hxy, if_false, List.cons.injEq, false_and, iff_false]
        split <;> simp

theorem store_append_length {α : Type} (pre : List α) (r : α) (rest : List α) (v : α) :
    store (pre ++ r :: rest) pre.length v = some (pre ++ v :: rest) := by
  simp [store]

theorem matchLoop_spec (tbl : List CString) (bit : CString) :
    ∀ (k i j : Nat) (pre rest : List (Option CString)),
      pre.length = j → i + k ≤ tbl.length → k ≤ rest.length →
      matchLoop tbl bit k i j (pre ++ rest) =
        some (j + (((tbl.drop i).take k).filter (fun kw => bit.isPrefixOf kw)).length,
          pre ++ (((tbl.drop i).take k).filter (fun kw => bit.isPrefixOf kw)).map some ++
            rest.drop (((tbl.drop i).take k).filter (fun kw => bit.isPrefixOf kw)).length) := by
  intro k
  induction k with
  | zero =>
    intro i j pre rest _ _ _
    simp [matchLoop]
  | succ k ih =>
    intro i j pre rest hj hi hk
    have hi1 : i < tbl.length := by omega
    have hget : tbl[i]? = some tbl[i] := List.getElem?_eq_getElem hi1
    rw [List.drop_eq_getElem_cons hi1, List.take_succ_cons]
    simp only [matchLoop, hget, strstr_eq_zero_iff]
    cases rest with
    | nil => simp at hk
    | cons r rest1 =>
      simp only [List.length_cons] at hk
      by_cases hm : bit.isPrefixOf tbl[i] = true
      · subst hj
        simp only [hm, if_true, store_append_length, List.filter_cons_of_pos]
        have := ih (i + 1) (pre.length + 1) (pre ++ [some tbl[i]]) rest1 (by simp)
          (by omega) (by omega)
        simp only [List.append_assoc, List.singleton_append] at this
        rw [this]
        simp only [List.length_cons, List.map_cons, List.drop_succ_cons, List.cons_append,
          List.append_assoc]
        congr 2
        omega
      · have hm1 : ¬ (bit.isPrefixOf tbl[i] = true) := hm
        simp only [hm, if_false, Bool.false_eq_true]
        rw [List.filter_cons_of_neg hm1]
        exact ih (i + 1) j pre (r :: rest1) hj (by omega) (by simp; omega)

theorem copyLoop_spec :
    ∀ (k j : Nat) (pre rest : List (Option CString)),
      pre.length = j → j + k ≤ keyworld.length → k ≤ rest.length →
      copyLoop k j (pre ++ rest) =
        some (j + k, pre ++ ((keyworld.drop j).take k).map some ++ rest.drop k) := by
  intro k
  induction k with
  | zero =>
    intro j pre rest _ _ _
    simp [copyLoop]
  | succ k ih =>
    intro j pre rest hj hi hk
    have hj1 : j < keyworld.length := by omega
    have hget : keyworld[j]? = some keyworld[j] := List.getElem?_eq_getElem hj1
    rw [List.drop_eq_getElem_cons hj1, List.take_succ_cons]
    simp only [copyLoop, hget]
    cases rest with
    | nil => simp at hk
    | cons r rest1 =>
      simp only [List.length_cons] at hk
      subst hj
      simp only [store_append_length]
      have := ih (pre.length + 1) (pre ++ [some keyworld[pre.length]]) rest1 (by simp)
        (by omega) (by omega)
      simp only [List.append_assoc, List.singleton_append] at this
      rw [this]
      simp only [List.map_cons, List.drop_succ_cons, List.cons_append, List.append_assoc]
      congr 2
      omega

theorem entries_map_some_append_none (M : List CString) (R : List (Option CString)) :
    entries (M.map some ++ none :: R) = M := by
  unfold entries
  rw [List.takeWhile_append_of_pos (by simp)]
  simp [List.filterMap_map]

theorem complete_tail (M : List CString) (rest : List (Option CString))
    (hM : M.length ≤ _NUM_OF_CMD) (hrest : rest.length = _NUM_OF_CMD)
    (res : Option (Nat × List (Option CString)))
    (hres : res = some (M.length, M.map some ++ (none :: rest).drop M.length)) :
    ∃ j cw,
      (res.bind fun jc => (store jc.2 jc.1 none).map fun cw1 => (jc.1, cw1)) = some (j, cw) ∧
      j ≤ _NUM_OF_CMD ∧ cw.length = _NUM_OF_CMD + 1 ∧ cw[j]? = some none ∧
      cw.take j = (entries cw).map some ∧ (entries cw).length = j ∧ entries cw = M := by
  have hlen : 0 < ((none :: rest).drop M.length).length := by
    simp only [List.length_drop, List.length_cons]
    omega
  cases hR : (none :: rest).drop M.length with
  | nil => rw [hR] at hlen; simp at hlen
  | cons r R =>
    have hRlen : R.length + 1 = _NUM_OF_CMD + 1 - M.length := by
      have := congrArg List.length hR
      simp only [List.length_drop, List.length_cons] at this
      omega
    have hst := store_append_length (M.map some) r R none
    rw [List.length_map] at hst
    refine ⟨M.length, M.map some ++ none :: R, ?_, hM, ?_, ?_, ?_, ?_, ?_⟩
    · rw [hres, hR]
      simp [hst]
    · simp only [List.length_append, List.length_map, List.length_cons]
      omega
    · rw [List.getElem?_append_right (by simp)]
      simp
    · rw [entries_map_some_append_none]
      exact List.take_left' (by simp)
    · rw [entries_map_some_append_none]
    · rw [entries_map_some_append_none]

/-- C10. `complete`, for every `argc` and `argv` of `argc` strings, and every
prior content of the 7-slot array `compl_world`: all array accesses are in
bounds, the final index `j` of the terminator is at most `_NUM_OF_CMD` (the
last slot), slot `j` holds the null terminator and the slots before it hold
the entries.  When `argc = 1` the entries are the commands of `keyworld` that
have `argv[0]` as a prefix, in table order; when `argc > 1` and `argv[0]` is
`"version"` they are the subcommands of `ver_keyworld` that have the last
token as a prefix, in table order; otherwise they are the six commands of
`keyworld` in table order. -/
theorem C10_complete_entries (argc : Nat) (argv : List CString)
    (compl_world : List (Option CString))
    (hargv : argv.length = argc) (hcw : compl_world.length = _NUM_OF_CMD + 1) :
    ∃ j cw,
      complete argc argv compl_world = some (j, cw) ∧
      j ≤ _NUM_OF_CMD ∧ cw.length = _NUM_OF_CMD + 1 ∧ cw[j]? = some none ∧
      cw.take j = (entries cw).map some ∧ (entries cw).length = j ∧
      (argc = 1 → ∀ bit, argv[0]? = some bit →
        entries cw = keyworld.filter (fun kw => bit.isPrefixOf kw)) ∧
      (argc > 1 → argv[0]? = some _CMD_VER → ∀ last, argv.getLast? = some last →
        entries cw = ver_keyworld.filter (fun kw => last.isPrefixOf kw)) ∧
      (¬ argc = 1 → ¬ (argc > 1 ∧ argv[0]? = some _CMD_VER) → entries cw = keyworld) := by
  cases compl_world with
  | nil => simp [_NUM_OF_CMD] at hcw
  | cons c0 rest =>
    have hrest : rest.length = _NUM_OF_CMD := by simpa using hcw
    have hstore : store (c0 :: rest) 0 none = some (none :: rest) := by simp [store]
    have hlast : argv[argc - 1]? = argv.getLast? := by
      rw [List.getLast?_eq_getElem?, hargv]
    unfold complete
    simp only [hstore, Option.some_bind]
    by_cases h1 : argc = 1
    · -- one token on the command line
      have h0 : 0 < argv.length := by omega
      have hbit : argv[1 - 1]? = some argv[0] := List.getElem?_eq_getElem h0
      have hloop := matchLoop_spec keyworld argv[0] _NUM_OF_CMD 0 0 [] (none :: rest) rfl
        (by decide) (by simp [hrest])
      simp only [List.drop_zero, List.nil_append, Nat.zero_add] at hloop
      have hk : (keyworld.take _NUM_OF_CMD) = keyworld := by decide
      rw [hk] at hloop
      have hM : (keyworld.filter (fun kw => argv[0].isPrefixOf kw)).length ≤ _NUM_OF_CMD :=
        le_trans (List.length_filter_le _ _) (by decide)
      obtain ⟨j, cw, hc, hj, hl, hn, ht, he, hE⟩ := complete_tail _ rest hM hrest _ hloop
      refine ⟨j, cw, ?_, hj, hl, hn, ht, he, ?_, ?_, ?_⟩
      · simp only [h1, if_true, hbit, Option.some_bind] at hc ⊢
        exact hc
      · intro _ bit hb
        rw [List.getElem?_eq_getElem h0] at hb
        cases hb
        exact hE
      · intro h; omega
      · intro h; exact absurd h1 h
    · by_cases h2 : argc > 1
      · have h0 : 0 < argv.length := by omega
        have ha0 : argv[0]? = some argv[0] := List.getElem?_eq_getElem h0
        have hl1 : argc - 1 < argv.length := by omega
        have hbit : argv[argc - 1]? = some argv[argc - 1] := List.getElem?_eq_getElem hl1
        by_cases hv : argv[0] = _CMD_VER
        · -- subcommands of version
          have hloop := matchLoop_spec ver_keyworld argv[argc - 1] _NUM_OF_VER_SCMD 0 0 []
            (none :: rest) rfl (by decide) (by simp [hrest, _NUM_OF_CMD, _NUM_OF_VER_SCMD])
          simp only [List.drop_zero, List.nil_append, Nat.zero_add] at hloop
          have hk : (ver_keyworld.take _NUM_OF_VER_SCMD) = ver_keyworld := by decide
          rw [hk] at hloop
          have hM : (ver_keyworld.filter
              (fun kw => argv[argc - 1].isPrefixOf kw)).length ≤ _NUM_OF_CMD :=
            le_trans (List.length_filter_le _ _) (by decide)
          obtain ⟨j, cw, hc, hj, hl, hn, ht, he, hE⟩ := complete_tail _ rest hM hrest _ hloop
          refine ⟨j, cw, ?_, hj, hl, hn, ht, he, ?_, ?_, ?_⟩
          · simp only [h1, if_false, h2, if_true, ha0, Option.some_bind,
              (strcmp_eq_zero_iff _ _).mpr hv, hbit] at hc ⊢
            exact hc
          · intro h; exact absurd h h1
          · intro _ _ last hlastv
            rw [← hlast, hbit] at hlastv
            cases hlastv
            exact hE
          · intro _ h
            exact absurd ⟨h2, by rw [ha0, hv]⟩ h
        · -- another command: all commands
          have hne : ¬ strcmp argv[0] _CMD_VER = 0 := fun h =>
            hv ((strcmp_eq_zero_iff _ _).mp h)
          have hloop := copyLoop_spec (_NUM_OF_CMD - 0) 0 [] (none :: rest) rfl
            (by decide) (by simp [hrest])
          simp only [List.drop_zero, List.nil_append, Nat.zero_add, Nat.sub_zero] at hloop
          have hk : (keyworld.take _NUM_OF_CMD) = keyworld := by decide
          rw [hk] at hloop
          have hlenk : keyworld.length = _NUM_OF_CMD := by decide
          rw [← hlenk] at hloop
          obtain ⟨j, cw, hc, hj, hl, hn, ht, he, hE⟩ :=
            complete_tail keyworld rest (by decide) hrest _ hloop
          refine ⟨j, cw, ?_, hj, hl, hn, ht, he, ?_, ?_, ?_⟩
          · simp only [h1, if_false, h2, if_true, ha0, Option.some_bind, hne,
              Nat.sub_zero] at hc ⊢
            rw [← hlenk]
            exact hc
          · intro h; exact absurd h h1
          · intro _ h
            rw [ha0] at h
            exact absurd (Option.some.inj h) hv
          · intro _ _; exact hE
      · -- no token on the command line
        have hloop := copyLoop_spec (_NUM_OF_CMD - 0) 0 [] (none :: rest) rfl
          (by decide) (by simp [hrest])
        simp only [List.drop_zero, List.nil_append, Nat.zero_add, Nat.sub_zero] at hloop
        have hk : (keyworld.take _NUM_OF_CMD) = keyworld := by decide
        rw [hk] at hloop
        have hlenk : keyworld.length = _NUM_OF_CMD := by decide
        rw [← hlenk] at hloop
        obtain ⟨j, cw, hc, hj, hl, hn, ht, he, hE⟩ :=
          complete_tail keyworld rest (by decide) hrest _ hloop
        refine ⟨j, cw, ?_, hj, hl, hn, ht, he, ?_, ?_, ?_⟩
        · simp only [h1, if_false, h2, Nat.sub_zero] at hc ⊢
          rw [← hlenk]
          exact hc
        · intro h; exact absurd h h1
        · intro h; exact absurd h h2
        · intro _ _; exact hE

/-- Instance of C10 at the command line `l` with an array of seven null
pointers. -/
theorem C10_witness :
    (["l".toList] : List CString).length = 1 ∧
    (List.replicate 7 none : List (Option CString)).length = _NUM_OF_CMD + 1 ∧
    ∃ j cw,
      complete 1 ["l".toList] (List.replicate 7 none) = some (j, cw) ∧
      j ≤ _NUM_OF_CMD ∧ cw.length = _NUM_OF_CMD + 1 ∧ cw[j]? = some none ∧
      cw.take j = (entries cw).map some ∧ (entries cw).length = j ∧
      (1 = 1 → ∀ bit, (["l".toList] : List CString)[0]? = some bit →
        entries cw = keyworld.filter (fun kw => bit.isPrefixOf kw)) ∧
      (1 > 1 → (["l".toList] : List CString)[0]? = some _CMD_VER →
        ∀ last, (["l".toList] : List CString).getLast? = some last →
        entries cw = ver_keyworld.filter (fun kw => last.isPrefixOf kw)) ∧
      (¬ 1 = 1 → ¬ (1 > 1 ∧ (["l".toList] : List CString)[0]? = some _CMD_VER) →
        entries cw = keyworld) :=
  ⟨rfl, rfl, C10_complete_entries 1 ["l".toList] (List.replicate 7 none) rfl rfl⟩

end MlabChibios
